import Mathlib

/-!
# Verification of the TFP preferential-attachment generator (tfp-pa)

Shallow embedding of the core data structures and algorithms of the
`tfp-pa` repository: the packed TFP token (`Token.hpp` /
`DistributionCount.hpp`), the compressed 80-bit token of the parallel
engine (`main_pba.cpp`), the seed/regular/random token generators
(`InitialCircle.hpp`, `RegularVertexTokenStream.hpp`, `main_ba.cpp`,
`ModelBBCR.hpp`), the stream merger (`StreamMerger.hpp`), the sequential
TFP process loop (`ProcessTokenSequence.hpp`), the edge filter
(`EdgeFilter.hpp`) and the reservoir sampler (`ReservoirSampling.hpp`).

Machine integers (`uint64_t`, `uint32_t`) are modelled as `Nat` with
explicit `% 2^w` reductions where the C++ code can overflow.  Randomness
is modelled by passing the drawn values as explicit arguments; the C++
`assert` macro is modelled by an `Option` result where the assertion is
part of a constructor, and is otherwise treated as compiled out
(release build), matching how the generators are shipped.
-/

/-! ## The 64-bit TFP token (`class Token`, `Token.hpp`)

`Token(bool query, id, value)` stores `_id = (id << 1) + query` and
`_value = value`; both fields are `uint64_t`, so the packing is reduced
`% 2^64`.  `id()` returns `_id >> 1`, `query()` returns `_id & 1`. -/

/-- A `Token64` value: the two stored 64-bit fields `_id` (packed) and
`_value`, exactly as laid out by `class Token<uint64_t>`. -/
structure Tok where
  tid : Nat
  tval : Nat
  deriving Repr, DecidableEq

/-- `Token::Token(bool query, id, value)`: `_id = (id << 1) + query`,
`_value = value`; 64-bit arithmetic, hence the `% 2^64`.  There is no
range check in the constructor. -/
def mkToken64 (query : Bool) (id value : Nat) : Tok :=
  { tid := (2 * id + (if query then 1 else 0)) % 2 ^ 64
    tval := value % 2 ^ 64 }

/-- `Token::id()` — `_id >> 1`. -/
def Tok.tokenId (t : Tok) : Nat := t.tid / 2

/-- `Token::query()` — `_id & 1` as a `Bool`. -/
def Tok.isQuery (t : Tok) : Bool := t.tid % 2 == 1

/-- `Token::value()`. -/
def Tok.value (t : Tok) : Nat := t.tval

/-- The low bit of `_id`, i.e. the token kind as a number
(0 = Link, 1 = Query). -/
def Tok.kindBit (t : Tok) : Nat := t.tid % 2

/-- `Token::operator<`: `_id < other._id || (_id == other._id && _value <
other._value)`. -/
def tokLt (a b : Tok) : Bool :=
  a.tid < b.tid || (a.tid == b.tid && a.tval < b.tval)

/-- The ascending lexicographic order on `(idx, kind, value)` triples
spelled out, with Link (kind bit 0) before Query (kind bit 1) at equal
`idx`; the order the spec describes for tokens. -/
def tokLexLt (a b : Tok) : Prop :=
  a.tokenId < b.tokenId ∨
    (a.tokenId = b.tokenId ∧
      (a.kindBit < b.kindBit ∨ (a.kindBit = b.kindBit ∧ a.value < b.value)))

/-! ## The compressed 80-bit token (`TokenCompressed`, `main_pba.cpp`)

`_data1 : uint64_t` holds `(index << 17) | (query << 16) | (value >> 32)`
and `_data2 : uint32_t` holds the low 32 bits of `value`.  The
constructor asserts `(index & mask) == index` and `(value & mask) ==
value` for `mask = 2^47 - 1`; the assertions are modelled by an `Option`
result (`none` = assertion failure / abort). -/

/-- The decompressed token of the parallel engine (`struct Token` of
`main_pba.cpp`): plain fields, no packing. -/
structure PTok where
  query : Bool
  index : Nat
  value : Nat
  deriving Repr, DecidableEq

/-- A `TokenCompressed` value: stored fields `_data1` (64 bits) and
`_data2` (32 bits). -/
structure TokC where
  data1 : Nat
  data2 : Nat
  deriving Repr, DecidableEq

/-- `TokenCompressed::TokenCompressed(query, index, value)`.  The bit
fields of `_data1` are disjoint once the asserted 47-bit ranges hold, so
`(index << 17) | (query << 16) | (value >> 32)` is written as a sum.
`assert((index & mask) == index)` (i.e. `index % 2^47 = index`) and the
analogous check on `value` abort on failure, modelled as `none`. -/
def mkTokenCompressed (query : Bool) (index value : Nat) : Option TokC :=
  if index % 2 ^ 47 = index ∧ value % 2 ^ 47 = value then
    some { data1 := (index * 2 ^ 17 + (if query then 1 else 0) * 2 ^ 16
                      + value / 2 ^ 32) % 2 ^ 64
           data2 := value % 2 ^ 32 }
  else
    none

/-- `TokenCompressed::is_query()` — `_data1 & (1 << 16)` as a `Bool`. -/
def TokC.isQuery (t : TokC) : Bool := t.data1 / 2 ^ 16 % 2 == 1

/-- `TokenCompressed::decompress()`: `index = _data1 >> 17`,
`value = ((_data1 & 0x7FFF) << 32) | _data2` (the bit ranges are
disjoint, so `|` is `+`). -/
def TokC.decompress (t : TokC) : PTok :=
  { query := t.isQuery
    index := t.data1 / 2 ^ 17
    value := t.data1 % 2 ^ 15 * 2 ^ 32 + t.data2 }

/-! ### Theorems on the token representation -/

/-- **C6.** The token comparison operator implements the ascending
lexicographic total order by `(idx, kind, value)`: for all tokens `a`,
`b`, `a < b` holds iff `(a.idx, a.kind, a.value)` is lexicographically
smaller than `(b.idx, b.kind, b.value)`, where at equal `idx` every Link
token (kind bit 0) precedes every Query token (kind bit 1). -/
theorem token_lt_iff_lex (a b : Tok) : tokLt a b = true ↔ tokLexLt a b := by
  unfold tokLt tokLexLt Tok.tokenId Tok.kindBit Tok.value
  have ha := Nat.div_add_mod a.tid 2
  have hb := Nat.div_add_mod b.tid 2
  have ha2 : a.tid % 2 < 2 := Nat.mod_lt _ (by norm_num)
  have hb2 : b.tid % 2 < 2 := Nat.mod_lt _ (by norm_num)
  simp only [Bool.or_eq_true, Bool.and_eq_true, decide_eq_true_eq, beq_iff_eq]
  omega

/-- The 64-bit packing loses the index whenever it is at or above
`2^63`: `(id << 1) + query` wraps and `id()` recovers `id - 2^63`. -/
theorem mkToken64_id_wraps (q : Bool) (i v : Nat)
    (h1 : 2 ^ 63 ≤ i) (h2 : i < 2 ^ 64) : (mkToken64 q i v).tokenId ≠ i := by
  unfold mkToken64 Tok.tokenId
  have hlt : 2 * i + (if q then 1 else 0) - 2 ^ 64 < 2 ^ 64 := by
    cases q <;> simp <;> omega
  have heq : (2 * i + (if q then 1 else 0)) % 2 ^ 64
      = 2 * i + (if q then 1 else 0) - 2 ^ 64 := by
    have : 2 ^ 64 ≤ 2 * i + (if q then 1 else 0) := by cases q <;> simp <;> omega
    omega
  simp only [heq]
  cases q <;> simp <;> omega

/-- **C10.** Token packing round-trip: for every flag `q`, every
`id < 2^63` and every 64-bit `value`, `Token64(q, id, value)` satisfies
`query() = q`, `id() = id`, `value() = value`; and the packing
`(id << 1) + q` is lossless *exactly* under `id < 2^63` — for every
64-bit `id ≥ 2^63` the recovered `id()` differs from `id`. -/
theorem token64_roundtrip (q : Bool) (id value : Nat)
    (hid : id < 2 ^ 63) (hv : value < 2 ^ 64) :
    (mkToken64 q id value).isQuery = q ∧
    (mkToken64 q id value).tokenId = id ∧
    (mkToken64 q id value).value = value ∧
    (∀ id' v', 2 ^ 63 ≤ id' → id' < 2 ^ 64 →
      (mkToken64 q id' v').tokenId ≠ id') := by
  unfold mkToken64 Tok.isQuery Tok.tokenId Tok.value
  refine ⟨?_, ?_, ?_, ?_⟩
  · cases q <;> simp <;> omega
  · cases q <;> simp <;> omega
  · simp; omega
  · intro id' v' h1 h2
    exact mkToken64_id_wraps q id' v' h1 h2

/-- Closed witness for `token64_roundtrip` at `q = true`,
`id = 2^63 - 1` (the largest packable index), `value = 5`. -/
theorem token64_roundtrip_witness :
    2 ^ 63 - 1 < 2 ^ 63 ∧ (5 : Nat) < 2 ^ 64 ∧
    ((mkToken64 true (2 ^ 63 - 1) 5).isQuery = true ∧
     (mkToken64 true (2 ^ 63 - 1) 5).tokenId = 2 ^ 63 - 1 ∧
     (mkToken64 true (2 ^ 63 - 1) 5).value = 5 ∧
     (∀ id' v', 2 ^ 63 ≤ id' → id' < 2 ^ 64 →
       (mkToken64 true id' v').tokenId ≠ id')) :=
  ⟨by norm_num, by norm_num,
    token64_roundtrip true (2 ^ 63 - 1) 5 (by norm_num) (by norm_num)⟩

/-- Constructing a compressed token within the asserted 47-bit ranges
succeeds and decompresses losslessly. -/
theorem tokC_construct_eval (q : Bool) (i v : Nat)
    (hi : i < 2 ^ 47) (hv : v < 2 ^ 47) :
    mkTokenCompressed q i v
      = some { data1 := i * 2 ^ 17 + (if q then 1 else 0) * 2 ^ 16 + v / 2 ^ 32
               data2 := v % 2 ^ 32 } ∧
    ∀ t, mkTokenCompressed q i v = some t →
      t.decompress = { query := q, index := i, value := v } := by
  have hmod : i % 2 ^ 47 = i ∧ v % 2 ^ 47 = v := ⟨Nat.mod_eq_of_lt hi, Nat.mod_eq_of_lt hv⟩
  have hq : (if q then 1 else 0) ≤ 1 := by cases q <;> simp
  have hvd : v / 2 ^ 32 < 2 ^ 15 := by omega
  have hd1 : i * 2 ^ 17 + (if q then 1 else 0) * 2 ^ 16 + v / 2 ^ 32 < 2 ^ 64 := by
    have : i * 2 ^ 17 ≤ (2 ^ 47 - 1) * 2 ^ 17 := by
      apply Nat.mul_le_mul_right
      omega
    omega
  constructor
  · unfold mkTokenCompressed
    rw [if_pos hmod]
    simp only [Option.some.injEq]
    congr 1
    exact Nat.mod_eq_of_lt hd1
  · intro t ht
    unfold mkTokenCompressed at ht
    rw [if_pos hmod] at ht
    simp only [Option.some.injEq] at ht
    subst ht
    unfold TokC.decompress TokC.isQuery
    simp only [Nat.mod_eq_of_lt hd1]
    congr 1
    · have : (i * 2 ^ 17 + (if q then 1 else 0) * 2 ^ 16 + v / 2 ^ 32) / 2 ^ 16
          = 2 * i + (if q then 1 else 0) := by omega
      rw [this]
      cases q <;> simp <;> omega
    · omega
    · have : (i * 2 ^ 17 + (if q then 1 else 0) * 2 ^ 16 + v / 2 ^ 32) % 2 ^ 15
          = v / 2 ^ 32 := by omega
      rw [this]
      omega

/-- **C7, counterexample.**  The claim says a 64-bit `Token` whose `idx`
exceeds the 63-bit packed range traps at construction time rather than
silently truncating.  The constructor
`Token(bool query, id, value) : _id((id << 1) + query), _value(value)`
contains no check at all: constructing a token with `idx = 2^63` (the
top of the packed range) succeeds and yields `id() = 0` — silent
truncation, no trap. -/
theorem token64_no_overflow_trap :
    (mkToken64 false (2 ^ 63) 7).tokenId = 0 ∧ (0 : Nat) ≠ 2 ^ 63 := by
  constructor
  · unfold mkToken64 Tok.tokenId
    norm_num
  · norm_num

/-- **C7, amended.**  Only the compressed 80-bit token checks the packed
range: its constructor asserts that `idx` and `value` fit in 47 bits and
aborts otherwise, and within that range construction succeeds and
decompresses losslessly.  The 64-bit `Token` performs no check: for any
`idx` in `[2^63, 2^64)` construction succeeds and silently truncates
(`id()` differs from `idx`). -/
theorem token_overflow_check_amended :
    (∀ q i v, 2 ^ 47 ≤ i → mkTokenCompressed q i v = none) ∧
    (∀ q i v, 2 ^ 47 ≤ v → mkTokenCompressed q i v = none) ∧
    (∀ q i v, i < 2 ^ 47 → v < 2 ^ 47 →
      mkTokenCompressed q i v
        = some { data1 := i * 2 ^ 17 + (if q then 1 else 0) * 2 ^ 16 + v / 2 ^ 32
                 data2 := v % 2 ^ 32 } ∧
      ∀ t, mkTokenCompressed q i v = some t →
        t.decompress = { query := q, index := i, value := v }) ∧
    (∀ q i v, 2 ^ 63 ≤ i → i < 2 ^ 64 → (mkToken64 q i v).tokenId ≠ i) := by
  refine ⟨?_, ?_, ?_, ?_⟩
  · intro q i v hi
    unfold mkTokenCompressed
    rw [if_neg]
    intro ⟨h1, _⟩
    have := Nat.mod_lt i (show 0 < 2 ^ 47 by norm_num)
    omega
  · intro q i v hv
    unfold mkTokenCompressed
    rw [if_neg]
    intro ⟨_, h2⟩
    have := Nat.mod_lt v (show 0 < 2 ^ 47 by norm_num)
    omega
  · intro q i v hi hv
    exact tokC_construct_eval q i v hi hv
  · intro q i v h1 h2
    exact mkToken64_id_wraps q i v h1 h2

/-- Closed witness for `token_overflow_check_amended`: the compressed
constructor aborts at `idx = 2^47` and succeeds at `idx = 3`,
`value = 9`; the 64-bit constructor truncates at `idx = 2^63`. -/
theorem token_overflow_check_amended_witness :
    mkTokenCompressed true (2 ^ 47) 0 = none ∧
    mkTokenCompressed true 0 (2 ^ 47) = none ∧
    (∀ t, mkTokenCompressed false 3 9 = some t →
      t.decompress = { query := false, index := 3, value := 9 }) ∧
    (mkToken64 true (2 ^ 63) 0).tokenId ≠ 2 ^ 63 :=
  ⟨token_overflow_check_amended.1 true (2 ^ 47) 0 (le_refl _),
   token_overflow_check_amended.2.1 true 0 (2 ^ 47) (le_refl _),
   (token_overflow_check_amended.2.2.1 false 3 9 (by norm_num) (by norm_num)).2,
   token_overflow_check_amended.2.2.2 true (2 ^ 63) 0 (le_refl _) (by norm_num)⟩

/-! ## Stream merger (`StreamMerger.hpp`)

`StreamMerger<T, Compare, S1, ..., Sk>` recursively wraps
`StreamMerger<T, Compare, S2, ..., Sk>`: on each advance it compares its
own front against the front of the recursive merger and takes its own
element only when `compare(*_my_stream, *_others)` holds, i.e. on ties
the element comes from `_others` (the later-listed streams).  The base
case with one stream is a plain pass-through.  Streams are modelled as
lists; the recursion is fuelled by the total number of elements, which
each step strictly decreases. -/

/-- One merge level of the `StreamMerger`: takes from the first list
while `lt` holds against the front of the second, otherwise (including
ties) from the second.  `fuel` bounds the recursion depth; it is dead
code once `fuel` covers the total length. -/
def streamMergeGo {α : Type} (lt : α → α → Bool) : Nat → List α → List α → List α
  | _, [], ys => ys
  | _, x :: xs, [] => x :: xs
  | 0, xs, ys => xs ++ ys
  | fuel + 1, x :: xs, y :: ys =>
    if lt x y then x :: streamMergeGo lt fuel xs (y :: ys)
    else y :: streamMergeGo lt fuel (x :: xs) ys

/-- `StreamMerger` over two streams. -/
def streamMerge {α : Type} (lt : α → α → Bool) (xs ys : List α) : List α :=
  streamMergeGo lt (xs.length + ys.length) xs ys

/-- The variadic `StreamMerger` over a sequence of streams: stream 1 is
merged against the recursive merger of streams 2..k (a right fold); the
single-stream base case is a pass-through. -/
def streamMergeK {α : Type} (lt : α → α → Bool) (ss : List (List α)) : List α :=
  ss.foldr (streamMerge lt) []

theorem streamMergeGo_irrel {α : Type} (lt : α → α → Bool) :
    ∀ f g xs ys, xs.length + ys.length ≤ f → xs.length + ys.length ≤ g →
      streamMergeGo lt f xs ys = streamMergeGo lt g xs ys := by
  intro f
  induction f with
  | zero =>
    intro g xs ys hf hg
    match xs, ys with
    | [], ys => cases g <;> rfl
    | x :: xs, [] => cases g <;> rfl
    | x :: xs, y :: ys => simp at hf
  | succ f ih =>
    intro g xs ys hf hg
    match xs, ys with
    | [], ys => cases g <;> rfl
    | x :: xs, [] => cases g <;> rfl
    | x :: xs, y :: ys =>
      match g, hg with
      | g + 1, hg =>
        simp only [streamMergeGo]
        simp only [List.length_cons] at hf hg
        by_cases h : lt x y
        · rw [if_pos h, if_pos h, ih g xs (y :: ys) (by simp; omega) (by simp; omega)]
        · rw [if_neg h, if_neg h, ih g (x :: xs) ys (by simp; omega) (by simp; omega)]

theorem streamMerge_nil_left {α : Type} (lt : α → α → Bool) (ys : List α) :
    streamMerge lt [] ys = ys := by
  unfold streamMerge
  cases ys <;> rfl

theorem streamMerge_nil_right {α : Type} (lt : α → α → Bool) (xs : List α) :
    streamMerge lt xs [] = xs := by
  unfold streamMerge
  cases xs <;> rfl

theorem streamMerge_cons_cons {α : Type} (lt : α → α → Bool) (x y : α) (xs ys : List α) :
    streamMerge lt (x :: xs) (y :: ys)
      = if lt x y then x :: streamMerge lt xs (y :: ys)
        else y :: streamMerge lt (x :: xs) ys := by
  have h1 : (x :: xs).length + (y :: ys).length = (xs.length + ys.length + 1) + 1 := by
    simp only [List.length_cons]; omega
  rw [streamMerge, h1]
  simp only [streamMergeGo]
  by_cases h : lt x y
  · rw [if_pos h, if_pos h]
    congr 1
  · rw [if_neg h, if_neg h]
    congr 1
    exact streamMergeGo_irrel lt _ _ (x :: xs) ys
      (by simp only [List.length_cons]; omega) (by simp only [List.length_cons]; omega)

theorem streamMerge_perm {α : Type} (lt : α → α → Bool) :
    ∀ xs ys : List α, (streamMerge lt xs ys).Perm (xs ++ ys) := by
  intro xs
  induction xs with
  | nil => intro ys; rw [streamMerge_nil_left]; simp
  | cons x xs ihx =>
    intro ys
    induction ys with
    | nil => rw [streamMerge_nil_right]; simp
    | cons y ys ihy =>
      rw [streamMerge_cons_cons]
      by_cases h : lt x y
      · rw [if_pos h]
        exact (ihx (y :: ys)).cons x
      · rw [if_neg h]
        refine ((ihy.cons y).trans ?_)
        exact (List.perm_middle).symm

theorem streamMerge_length {α : Type} (lt : α → α → Bool) (xs ys : List α) :
    (streamMerge lt xs ys).length = xs.length + ys.length := by
  have := (streamMerge_perm lt xs ys).length_eq
  simpa using this

theorem streamMergeK_perm {α : Type} (lt : α → α → Bool) :
    ∀ ss : List (List α), (streamMergeK lt ss).Perm ss.flatten := by
  intro ss
  induction ss with
  | nil => simp [streamMergeK]
  | cons s ss ih =>
    simp only [streamMergeK, List.foldr_cons, List.flatten_cons]
    exact (streamMerge_perm lt s _).trans ((ih.append_left s))

theorem streamMergeK_length {α : Type} (lt : α → α → Bool) (ss : List (List α)) :
    (streamMergeK lt ss).length = (ss.map List.length).sum := by
  have := (streamMergeK_perm lt ss).length_eq
  simpa [List.length_flatten] using this

/-! ## The sequential TFP process loop (`ProcessTokenSequence.hpp`)

The loop repeatedly takes the smaller of the merged stream's front and
the priority queue's top (`*_stream < _prio_queue.top()`; on a tie the
queue is popped).  A Link token sets `_current_vertex` to its value and
emits it; a Query token pushes `Link(query.value, _current_vertex)` into
the queue.  The external max-PQ under the descending comparator (top =
smallest token) is modelled as an ascending sorted list whose head is
the top.  The debug assertion and the debug print inside
`_processToken` are compiled out in release builds and not modelled.
Recursion is fuelled; each step strictly decreases
`tfpMeasure`, so `tfpMeasure + 1` fuel drains everything. -/

/-- Ordered insertion into the ascending list modelling the priority
queue (`_prio_queue.push`). -/
def pqInsert (x : Tok) : List Tok → List Tok
  | [] => [x]
  | y :: ys => if tokLt y x then y :: pqInsert x ys else x :: y :: ys

/-- Number of Query tokens in a list. -/
def countQueries (l : List Tok) : Nat := l.countP (fun t => t.isQuery)

/-- Termination measure of the TFP loop: every consumed Link shrinks it
by one and every consumed Query by two (the Query disappears, the
pushed answer Link adds one). -/
def tfpMeasure (s pq : List Tok) : Nat :=
  s.length + pq.length + 2 * (countQueries s + countQueries pq)

/-- The TFP drain loop (`ProcessTokenSequence::operator++` iterated
until `empty`): the emitted `_current_vertex` values in order.  `s` is
the merged input stream, `pq` the priority queue (sorted ascending,
head = top), `cv` the running `_current_vertex` (uninitialised in the
C++ object; its start value only matters if a Query precedes every
Link). -/
def tfpGo : Nat → List Tok → List Tok → Nat → List Nat
  | 0, _, _, _ => []
  | fuel + 1, s, pq, cv =>
    match s, pq with
    | [], [] => []
    | tok :: s', [] =>
      if tok.isQuery then
        tfpGo fuel s' (pqInsert (mkToken64 false tok.value cv) []) cv
      else
        tok.value :: tfpGo fuel s' [] tok.value
    | [], top :: pq' =>
      if top.isQuery then
        tfpGo fuel [] (pqInsert (mkToken64 false top.value cv) pq') cv
      else
        top.value :: tfpGo fuel [] pq' top.value
    | tok :: s', top :: pq' =>
      if tokLt tok top then
        if tok.isQuery then
          tfpGo fuel s' (pqInsert (mkToken64 false tok.value cv) (top :: pq')) cv
        else
          tok.value :: tfpGo fuel s' (top :: pq') tok.value
      else
        if top.isQuery then
          tfpGo fuel (tok :: s') (pqInsert (mkToken64 false top.value cv) pq') cv
        else
          top.value :: tfpGo fuel (tok :: s') pq' top.value

/-- The full TFP process over a merged stream: drain with sufficient
fuel, starting from an empty priority queue. -/
def tfpProcess (s : List Tok) : List Nat :=
  tfpGo (tfpMeasure s [] + 1) s [] 0

theorem pqInsert_length (x : Tok) : ∀ l : List Tok,
    (pqInsert x l).length = l.length + 1 := by
  intro l
  induction l with
  | nil => rfl
  | cons y ys ih =>
    unfold pqInsert
    by_cases h : tokLt y x
    · rw [if_pos h]
      simp [ih]
    · rw [if_neg h]
      simp

theorem pqInsert_countP (x : Tok) : ∀ l : List Tok,
    (pqInsert x l).countP (fun t => t.isQuery)
      = l.countP (fun t => t.isQuery) + (if x.isQuery then 1 else 0) := by
  intro l
  induction l with
  | nil => simp [pqInsert, List.countP_cons]
  | cons y ys ih =>
    unfold pqInsert
    by_cases h : tokLt y x
    · rw [if_pos h]
      simp only [List.countP_cons, ih]
      omega
    · rw [if_neg h]
      simp only [List.countP_cons]

/-- A token constructed with the Link flag is not a Query. -/
theorem mkToken64_link_not_query (id v : Nat) :
    (mkToken64 false id v).isQuery = false := by
  unfold mkToken64 Tok.isQuery
  simp only [if_neg Bool.false_ne_true, Nat.add_zero]
  have h64 : (2 : Nat) ∣ 2 ^ 64 := dvd_pow_self 2 (by norm_num)
  have := Nat.mod_mod_of_dvd (2 * id) h64
  simp only [beq_eq_false_iff_ne, ne_eq]
  omega

/-- Every token consumed by the TFP loop contributes exactly one output
value: Links directly, Queries through the answer Link they push.
Hence the drain emits one value per initial token. -/
theorem tfpGo_length : ∀ fuel s pq cv, tfpMeasure s pq < fuel →
    (tfpGo fuel s pq cv).length = s.length + pq.length := by
  intro fuel
  induction fuel with
  | zero => intro s pq cv h; exact absurd h (Nat.not_lt_zero _)
  | succ fuel ih =>
    intro s pq cv h
    simp only [tfpMeasure, countQueries] at h
    match s, pq with
    | [], [] => rfl
    | tok :: s', [] =>
      simp only [tfpGo]
      by_cases hq : tok.isQuery
      · have hm : tfpMeasure s' (pqInsert (mkToken64 false tok.value cv) []) < fuel := by
          simp only [tfpMeasure, countQueries, pqInsert_length, pqInsert_countP,
            mkToken64_link_not_query, List.countP_cons, hq] at h ⊢
          simp only [List.length_cons, List.length_nil, List.countP_nil] at h ⊢
          simp at h ⊢
          omega
        rw [if_pos hq, ih _ _ cv hm, pqInsert_length]
        simp
      · have hm : tfpMeasure s' [] < fuel := by
          simp only [tfpMeasure, countQueries, List.countP_cons, hq] at h ⊢
          simp only [List.length_cons, List.length_nil, List.countP_nil] at h ⊢
          simp at h ⊢
          omega
        rw [if_neg hq]
        simp only [List.length_cons, ih _ _ tok.value hm]
        simp
    | [], top :: pq' =>
      simp only [tfpGo]
      by_cases hq : top.isQuery
      · have hm : tfpMeasure [] (pqInsert (mkToken64 false top.value cv) pq') < fuel := by
          simp only [tfpMeasure, countQueries, pqInsert_length, pqInsert_countP,
            mkToken64_link_not_query, List.countP_cons, hq] at h ⊢
          simp only [List.length_cons, List.length_nil, List.countP_nil] at h ⊢
          simp at h ⊢
          omega
        rw [if_pos hq, ih _ _ cv hm, pqInsert_length]
        simp
      · have hm : tfpMeasure [] pq' < fuel := by
          simp only [tfpMeasure, countQueries, List.countP_cons, hq] at h ⊢
          simp only [List.length_cons, List.length_nil, List.countP_nil] at h ⊢
          simp at h ⊢
          omega
        rw [if_neg hq]
        simp only [List.length_cons, ih _ _ top.value hm]
        simp
    | tok :: s', top :: pq' =>
      simp only [tfpGo]
      by_cases hcmp : tokLt tok top
      · rw [if_pos hcmp]
        by_cases hq : tok.isQuery
        · have hm : tfpMeasure s' (pqInsert (mkToken64 false tok.value cv) (top :: pq'))
              < fuel := by
            simp only [tfpMeasure, countQueries, pqInsert_length, pqInsert_countP,
              mkToken64_link_not_query, List.countP_cons, hq] at h ⊢
            simp only [List.length_cons] at h ⊢
            simp at h ⊢
            omega
          rw [if_pos hq, ih _ _ cv hm, pqInsert_length]
          simp only [List.length_cons]
          omega
        · have hm : tfpMeasure s' (top :: pq') < fuel := by
            simp only [tfpMeasure, countQueries, List.countP_cons, hq] at h ⊢
            simp only [List.length_cons] at h ⊢
            simp at h ⊢
            omega
          rw [if_neg hq]
          simp only [List.length_cons, ih _ _ tok.value hm]
          omega
      · rw [if_neg hcmp]
        by_cases hq : top.isQuery
        · have hm : tfpMeasure (tok :: s') (pqInsert (mkToken64 false top.value cv) pq')
              < fuel := by
            simp only [tfpMeasure, countQueries, pqInsert_length, pqInsert_countP,
              mkToken64_link_not_query, List.countP_cons, hq] at h ⊢
            simp only [List.length_cons] at h ⊢
            simp at h ⊢
            omega
          rw [if_pos hq, ih _ _ cv hm, pqInsert_length]
          simp only [List.length_cons]
          try omega
        · have hm : tfpMeasure (tok :: s') pq' < fuel := by
            simp only [tfpMeasure, countQueries, List.countP_cons, hq] at h ⊢
            simp only [List.length_cons] at h ⊢
            simp at h ⊢
            omega
          rw [if_neg hq]
          simp only [List.length_cons, ih _ _ top.value hm]
          try omega

theorem tfpProcess_length (s : List Tok) : (tfpProcess s).length = s.length := by
  unfold tfpProcess
  rw [tfpGo_length _ s [] 0 (Nat.lt_succ_self _)]
  simp

/-! ## Token generators of the sequential BA pipeline (`main_ba.cpp`)

`InitialCircle(2*edges_per_vertex)` provides the seed ring,
`RegularVertexTokenStream` the deterministic Link tokens of the random
vertices, and the main loop pushes one Query token per random edge into
an ascending external sorter.  The external sorter (a black-box stxxl
component, spec §6.2) is modelled by a stable ascending sort.  Random
draws are passed in as a function from the edge counter to the drawn
value. -/

/-- `InitialCircle::operator++` for token id `i` (with
`_number_of_tokens = 2 * number_of_vertices`): the last token points
back to the first vertex, every other token `i` carries vertex
`first_id + (i + 1) / 2`. -/
def initialCircleToken (numberOfVertices firstId i : Nat) : Tok :=
  if 2 * numberOfVertices - 1 ≤ i then mkToken64 false i firstId
  else mkToken64 false i (firstId + (i + 1) / 2)

/-- The full seed stream: tokens for ids `0 .. 2*number_of_vertices-1`. -/
def initialCircleTokens (numberOfVertices firstId : Nat) : List Tok :=
  (List.range (2 * numberOfVertices)).map (initialCircleToken numberOfVertices firstId)

/-- `InitialCircle::numberOfEdges()` — `_number_of_tokens / 2`. -/
def initialCircleNumberOfEdges (numberOfVertices : Nat) : Nat :=
  2 * numberOfVertices / 2

/-- `InitialCircle::maxVertexId()` — `first_id + _number_of_tokens/2 - 1`. -/
def initialCircleMaxVertexId (numberOfVertices firstId : Nat) : Nat :=
  firstId + 2 * numberOfVertices / 2 - 1

/-- The `t`-th token of `RegularVertexTokenStream` (`t` counts emitted
tokens; the stream advances the edge-list index by 2 per token and the
vertex id once per `edges_per_vertex` tokens). -/
def regularVertexToken (firstVertex firstIdx edgesPerVertex t : Nat) : Tok :=
  mkToken64 false (firstIdx + 2 * t) (firstVertex + t / edgesPerVertex)

/-- The full regular vertex stream: `number_of_vertices *
edges_per_vertex` Link tokens (the CLI rejects
`edges_per_vertex = 0`, so that case never arises). -/
def regularVertexTokens (firstVertex firstIdx numberOfVertices edgesPerVertex : Nat) :
    List Tok :=
  (List.range (numberOfVertices * edgesPerVertex)).map
    (regularVertexToken firstVertex firstIdx edgesPerVertex)

/-- The sampling bound of the BA random-query loop of `main_ba.cpp` at
vertex `v`, edge `j`: `this_weight = 2*seed_edges + 2*m*v + 2*j*dep`
with `seed_edges = 2*m` and `dep ∈ {0,1}` the edge-dependencies flag. -/
def baSeqWeight (m dep v j : Nat) : Nat := 4 * m + 2 * m * v + 2 * j * dep

/-- The destination slot of the `t`-th random query of `main_ba.cpp`
(`t = v*m + j`): `idx` starts at `2*seed_edges + 1 = 4m + 1` and grows
by 2 per edge. -/
def baSeqQueryIdx (m t : Nat) : Nat := 4 * m + 1 + 2 * t

/-- The token pushed for the `t`-th random edge of `main_ba.cpp`:
`Token64(true, r, idx)` — unconditionally a Query, whatever `r` is. -/
def baSeqRandomToken (m t r : Nat) : Tok :=
  mkToken64 true r (baSeqQueryIdx m t)

/-- Non-strict token order used for the ascending sorter. -/
def tokLe (a b : Tok) : Prop := tokLt b a = false

instance : DecidableRel tokLe := fun a b =>
  inferInstanceAs (Decidable (tokLt b a = false))

/-- The external ascending sorter over tokens (stxxl `sorter`, a
black-box external-memory component per spec §6.2): modelled as a
stable ascending sort of the pushed tokens. -/
def sortTokens (l : List Tok) : List Tok := List.insertionSort tokLe l

/-- The seed stream of `main_ba.cpp`: `InitialCircle(2*edges_per_vertex)`. -/
def baSeedTokens (m : Nat) : List Tok := initialCircleTokens (2 * m) 0

/-- `seedTokens.numberOfEdges()` in `main_ba.cpp` (equals `2*m`). -/
def baSeedEdges (m : Nat) : Nat := initialCircleNumberOfEdges (2 * m)

/-- The regular vertex stream of `main_ba.cpp`:
`RegularVertexTokenStream(maxVertexId+1, 2*numberOfEdges, n, m)`. -/
def baRegularTokens (n m : Nat) : List Tok :=
  regularVertexTokens (initialCircleMaxVertexId (2 * m) 0 + 1) (2 * baSeedEdges m) n m

/-- The sorted random query stream of `main_ba.cpp`; `r t` is the value
drawn by `RandomInteger<8>::randint(this_weight)` for the `t`-th edge. -/
def baRandomTokens (n m : Nat) (r : Nat → Nat) : List Tok :=
  sortTokens ((List.range (n * m)).map (fun t => baSeqRandomToken m t (r t)))

/-- The merged token sequence fed into the TFP loop
(`StreamMerger(comparator, regularTokens, randomTokens, seedTokens)`). -/
def baTokenSequence (n m : Nat) (r : Nat → Nat) : List Tok :=
  streamMergeK tokLt [baRegularTokens n m, baRandomTokens n m r, baSeedTokens m]

/-- The vertex stream produced by `ProcessTokenSequence` in the
sequential BA run. -/
def baProcessOutput (n m : Nat) (r : Nat → Nat) : List Nat :=
  tfpProcess (baTokenSequence n m r)

/-- `EdgeWriter::writeVertices` counts `vertices / 2` edges (the
no-filter path of `main_ba.cpp`), so `edgesWritten()` is half the
number of emitted vertex values. -/
def baEdgesWritten (n m : Nat) (r : Nat → Nat) : Nat :=
  (baProcessOutput n m r).length / 2

/-- **C1.** For every sequential BA run with `n ≥ 1` vertices, `m ≥ 1`
edges per vertex and no filters enabled, the pipeline terminates with
`edgesWritten() = seed_edges + n*m` (with `seed_edges = 2m`, the size of
the seed ring), i.e. the TFP process loop emits exactly
`2*(seed_edges + n*m)` vertex values, one per Link token consumed —
for every choice `r` of random draws. -/
theorem ba_pipeline_edge_count (n m : Nat) (r : Nat → Nat)
    (hn : 1 ≤ n) (hm : 1 ≤ m) :
    (baProcessOutput n m r).length = 2 * (baSeedEdges m + n * m) ∧
    baEdgesWritten n m r = baSeedEdges m + n * m := by
  have hlen : (baProcessOutput n m r).length = 2 * (baSeedEdges m + n * m) := by
    unfold baProcessOutput
    rw [tfpProcess_length]
    unfold baTokenSequence
    rw [streamMergeK_length]
    have h1 : (baRegularTokens n m).length = n * m := by
      unfold baRegularTokens regularVertexTokens
      simp
    have h2 : (baRandomTokens n m r).length = n * m := by
      unfold baRandomTokens sortTokens
      rw [(List.perm_insertionSort tokLe _).length_eq]
      simp
    have h3 : (baSeedTokens m).length = 4 * m := by
      unfold baSeedTokens initialCircleTokens
      simp
      omega
    simp only [List.map_cons, List.map_nil, List.sum_cons, List.sum_nil,
      h1, h2, h3]
    unfold baSeedEdges initialCircleNumberOfEdges
    omega
  refine ⟨hlen, ?_⟩
  unfold baEdgesWritten
  rw [hlen]
  omega

/-- Closed witness for `ba_pipeline_edge_count` at `n = m = 1` with
all-zero random draws: 6 vertex values, 3 edges. -/
theorem ba_pipeline_edge_count_witness :
    1 ≤ 1 ∧
    ((baProcessOutput 1 1 (fun _ => 0)).length
        = 2 * (baSeedEdges 1 + 1 * 1) ∧
      baEdgesWritten 1 1 (fun _ => 0) = baSeedEdges 1 + 1 * 1) :=
  ⟨le_refl 1, ba_pipeline_edge_count 1 1 (fun _ => 0) (le_refl 1) (le_refl 1)⟩

/-! ## The BBCR random token generator (`models/ModelBBCR.hpp`)

`_generate_random_token(distr)` either performs a uniform selection
(`Link(_token_id, _rand64(_vertex_id + 1))`) — taken when `offset > 0`
and the uniform real draw `u` falls below
`(_vertex_id*offset) / (_vertex_id*offset + _token_id/2)` (note the
*integer* division `_token_id/2`) — or a preferential-attachment
selection: draw `rand_token` from `[0, _token_id & ~1)` and clear
(`DistrOut`) or set (`DistrIn`) its lowest bit, yielding
`Query(rand_token, _token_id)`.  The C++ doubles are modelled as
rationals; `x & ~1llu = 2*(x/2)` and `x | 1llu = 2*(x/2) + 1` for the
bit operations on the event-count values.  The random draws `u`
(`_randdbl()`), `r` (`_rand64(_token_id & ~1)`, so `r < 2*(t/2)`) and
`ru` (`_rand64(_vertex_id + 1)`, so `ru < v + 1`) are explicit
arguments. -/

/-- The answer position of the PA selection: lowest bit cleared for the
out-distribution (even = "from" slots), set for the in-distribution
(odd = "to" slots). -/
def bbcrPaTokenIdx (distrOut : Bool) (r : Nat) : Nat :=
  if distrOut then 2 * (r / 2) else 2 * (r / 2) + 1

/-- `ModelBBCR::_generate_random_token` for current `_vertex_id = v`
and `_token_id = t` (the caller increments `t` afterwards; `v` is
never modified here). -/
def bbcrGenerateRandomToken (distrOut : Bool) (offset u : ℚ) (v t r ru : Nat) : Tok :=
  if 0 < offset ∧ u < (v : ℚ) * offset / ((v : ℚ) * offset + ((t / 2 : Nat) : ℚ)) then
    mkToken64 false t ru
  else
    mkToken64 true (bbcrPaTokenIdx distrOut r) t

/-! ## The parallel BA engine's request filler (`main_pba.cpp`)

`RAGPath seed_graph(1000 * edges_per_vertex)` describes the seed path
graph; the fill loop draws `r < weight` with
`weight = 2*seed_graph.numberOfEdges() + 2*edges_per_vertex*vertex`
(plus `2*edge_dependencies` per processed edge) and pushes, for
`idx = edges_per_vertex*vertex + edge`:
`Link(idx, seed_graph(r))` when `r < seed_weight`,
`Link(idx, (r-seed_weight)/2/edges_per_vertex + maxVertexId() + 1)`
when `r` is odd, and `Query((r-seed_weight)/2, idx)` otherwise. -/

/-- `RAGPath::operator()` — node at position `idx` of the seed edge
list: `idx/2 + (idx & 1)`. -/
def pbaSeedGraphNode (idx : Nat) : Nat := idx / 2 + idx % 2

/-- The `(query, index, value)` triple handed to the `TokenCompressed`
constructor by the request filler of `main_pba.cpp`, for seed-graph
size `E` (`RAGPath::maxVertexId() = E`), `edges_per_vertex = m`,
vertex `vtx`, edge `e` and draw `r`. -/
def pbaFillTriple (m E vtx e r : Nat) : Bool × Nat × Nat :=
  let seedWeight := 2 * E
  let idx := m * vtx + e
  if r < seedWeight then (false, idx, pbaSeedGraphNode r)
  else if r % 2 = 1 then (false, idx, (r - seedWeight) / 2 / m + E + 1)
  else (true, (r - seedWeight) / 2, idx)

/-- Accessor evaluation for a Query-flagged token with in-range index. -/
theorem mkToken64_query_eval (x y : Nat) (hx : x < 2 ^ 63) :
    (mkToken64 true x y).isQuery = true ∧ (mkToken64 true x y).tokenId = x := by
  unfold mkToken64 Tok.isQuery Tok.tokenId
  simp only [if_pos]
  constructor
  · simp only [beq_iff_eq]
    omega
  · omega

/-- The stored value of a token with in-range value. -/
theorem mkToken64_value_eval (q : Bool) (x y : Nat) (hy : y < 2 ^ 64) :
    (mkToken64 q x y).value = y := by
  unfold mkToken64 Tok.value
  simp only
  omega

/-- **C2.** Every Query token `(idx, v)` produced by any of the three
token generators — the sequential BA random query stream, the BBCR
generator and the parallel BA engine's request filler — satisfies
`v > idx`: an answer never back-propagates to an earlier edge-list
position.  (Range hypotheses keep the 64-bit packing lossless; draw
hypotheses are the ranges the generators sample from.) -/
theorem query_value_exceeds_index :
    (∀ m dep v j rr, dep ≤ 1 → rr < baSeqWeight m dep v j →
      baSeqQueryIdx m (v * m + j) < 2 ^ 63 →
      (baSeqRandomToken m (v * m + j) rr).isQuery = true ∧
      (baSeqRandomToken m (v * m + j) rr).tokenId
        < (baSeqRandomToken m (v * m + j) rr).value) ∧
    (∀ distrOut offset u v t rr ru, rr < 2 * (t / 2) → t < 2 ^ 63 →
      (bbcrGenerateRandomToken distrOut offset u v t rr ru).isQuery = true →
      (bbcrGenerateRandomToken distrOut offset u v t rr ru).tokenId
        < (bbcrGenerateRandomToken distrOut offset u v t rr ru).value) ∧
    (∀ m E vtx e rr dep, dep ≤ 1 → rr < 2 * E + 2 * m * vtx + 2 * dep * e →
      (pbaFillTriple m E vtx e rr).1 = true →
      (pbaFillTriple m E vtx e rr).2.1 < (pbaFillTriple m E vtx e rr).2.2) := by
  refine ⟨?_, ?_, ?_⟩
  · intro m dep v j rr hdep hr hrange
    have hjd : 2 * j * dep ≤ 2 * j := by
      calc 2 * j * dep ≤ 2 * j * 1 := Nat.mul_le_mul_left _ hdep
        _ = 2 * j := by ring
    have hvm : 2 * m * v = 2 * (v * m) := by ring
    unfold baSeqWeight at hr
    unfold baSeqQueryIdx at hrange
    have hx : rr < 2 ^ 63 := by omega
    unfold baSeqRandomToken
    obtain ⟨hq, hid⟩ := mkToken64_query_eval rr (baSeqQueryIdx m (v * m + j)) hx
    rw [hq, hid, mkToken64_value_eval true rr _ (by unfold baSeqQueryIdx; omega)]
    refine ⟨rfl, ?_⟩
    unfold baSeqQueryIdx
    omega
  · intro distrOut offset u v t rr ru hr ht
    unfold bbcrGenerateRandomToken
    by_cases hc : 0 < offset ∧ u < (v : ℚ) * offset / ((v : ℚ) * offset + ((t / 2 : Nat) : ℚ))
    · rw [if_pos hc]
      rw [mkToken64_link_not_query]
      intro hfalse
      exact absurd hfalse (by simp)
    · rw [if_neg hc]
      intro _
      have hidx : bbcrPaTokenIdx distrOut rr < t := by
        unfold bbcrPaTokenIdx
        by_cases hd : distrOut
        · rw [if_pos hd]; omega
        · rw [if_neg hd]; omega
      obtain ⟨_, hid⟩ := mkToken64_query_eval (bbcrPaTokenIdx distrOut rr) t (by omega)
      rw [hid, mkToken64_value_eval true _ t (by omega)]
      exact hidx
  · intro m E vtx e rr dep hdep hr
    have hde : 2 * dep * e ≤ 2 * e := by
      calc 2 * dep * e = 2 * e * dep := by ring
        _ ≤ 2 * e * 1 := Nat.mul_le_mul_left _ hdep
        _ = 2 * e := by ring
    have hmv : 2 * m * vtx = 2 * (m * vtx) := by ring
    have hed : 2 * dep * e = 2 * (dep * e) ∧ dep * e ≤ e := by
      constructor
      · ring
      · calc dep * e ≤ 1 * e := Nat.mul_le_mul_right _ hdep
          _ = e := by ring
    unfold pbaFillTriple pbaSeedGraphNode
    by_cases h1 : rr < 2 * E
    · rw [if_pos h1]
      intro hfalse
      exact absurd hfalse (by simp)
    · rw [if_neg h1]
      by_cases h2 : rr % 2 = 1
      · rw [if_pos h2]
        intro hfalse
        exact absurd hfalse (by simp)
      · rw [if_neg h2]
        intro _
        simp only
        obtain ⟨he1, he2⟩ := hed
        omega

/-- Closed witness for `query_value_exceeds_index`: the BA stream at
`m = 1, v = 1, j = 0, r = 3`; the BBCR generator at
`offset = 0, t = 5, r = 2` (PA branch, Query(3, 5)); the parallel
filler at `m = 1, E = 2, vtx = 1, e = 0, r = 4` (Query(0, 1)). -/
theorem query_value_exceeds_index_witness :
    ((baSeqRandomToken 1 (1 * 1 + 0) 3).isQuery = true ∧
      (baSeqRandomToken 1 (1 * 1 + 0) 3).tokenId
        < (baSeqRandomToken 1 (1 * 1 + 0) 3).value) ∧
    ((bbcrGenerateRandomToken false 0 0 0 5 2 0).tokenId
        < (bbcrGenerateRandomToken false 0 0 0 5 2 0).value) ∧
    ((pbaFillTriple 1 2 1 0 4).2.1 < (pbaFillTriple 1 2 1 0 4).2.2) :=
  ⟨query_value_exceeds_index.1 1 0 1 0 3 (by norm_num) (by norm_num [baSeqWeight])
      (by norm_num [baSeqQueryIdx]),
   query_value_exceeds_index.2.1 false 0 0 0 5 2 0 (by norm_num) (by norm_num)
      (by decide),
   query_value_exceeds_index.2.2 1 2 1 0 4 0 (by norm_num) (by norm_num)
      (by decide)⟩

/-- The compressed token actually pushed by the request filler of
`main_pba.cpp` (`mppq.bulk_push(TokenCompressed{...})`). -/
def pbaFillTokenC (m E vtx e r : Nat) : Option TokC :=
  mkTokenCompressed (pbaFillTriple m E vtx e r).1
    (pbaFillTriple m E vtx e r).2.1 (pbaFillTriple m E vtx e r).2.2

/-- **C3, counterexample.**  The claim predicts that for an odd draw `r`
beyond the seed range the BA query stream emits a direct Link token.
At `m = 1`, vertex `v = 1`, edge `j = 0`, the draw `r = 5` is legal
(`5 < weight = 6`), odd, and at least `2*seed_edges = 4` — yet
`main_ba.cpp` pushes `Token64(true, r, idx)` unconditionally, a Query
token, not a Link. -/
theorem ba_random_stream_always_query_counterexample :
    2 * baSeedEdges 1 ≤ 5 ∧ 5 % 2 = 1 ∧ 5 < baSeqWeight 1 0 1 0 ∧
    (baSeqRandomToken 1 (1 * 1 + 0) 5).isQuery = true := by
  decide

/-- **C3, amended.**  The sequential BA generator (`main_ba.cpp`) never
branches on the draw: for every `r` it emits
`Query(r, 2*seed_edges + 1 + 2*(v*m + j))` (the odd "to" slot of the
new edge).  Only the parallel engine (`main_pba.cpp`) branches, and
differently from the claim: `r < 2*seed_edges` gives a direct
`Link(idx, seed_graph(r))` (not a Query); odd `r` beyond the seed range
gives a direct `Link(idx, (r-seed_weight)/2/m + maxVertexId + 1)`; even
`r` beyond the seed range gives `Query((r-seed_weight)/2, idx)` — with
`idx = m*vtx + e` counting edges, not slots.  The pushed compressed
token decompresses to exactly that triple whenever it is in range. -/
theorem ba_random_stream_amended :
    (∀ m t rr, rr < 2 ^ 63 → baSeqQueryIdx m t < 2 ^ 64 →
      (baSeqRandomToken m t rr).isQuery = true ∧
      (baSeqRandomToken m t rr).tokenId = rr ∧
      (baSeqRandomToken m t rr).value = baSeqQueryIdx m t) ∧
    (∀ m E vtx e rr,
      (rr < 2 * E →
        pbaFillTriple m E vtx e rr = (false, m * vtx + e, pbaSeedGraphNode rr)) ∧
      (2 * E ≤ rr → rr % 2 = 1 →
        pbaFillTriple m E vtx e rr = (false, m * vtx + e, (rr - 2 * E) / 2 / m + E + 1)) ∧
      (2 * E ≤ rr → rr % 2 = 0 →
        pbaFillTriple m E vtx e rr = (true, (rr - 2 * E) / 2, m * vtx + e))) ∧
    (∀ m E vtx e rr,
      (pbaFillTriple m E vtx e rr).2.1 < 2 ^ 47 →
      (pbaFillTriple m E vtx e rr).2.2 < 2 ^ 47 →
      ∀ tc, pbaFillTokenC m E vtx e rr = some tc →
        tc.decompress = { query := (pbaFillTriple m E vtx e rr).1,
                          index := (pbaFillTriple m E vtx e rr).2.1,
                          value := (pbaFillTriple m E vtx e rr).2.2 }) := by
  refine ⟨?_, ?_, ?_⟩
  · intro m t rr hr hidx
    unfold baSeqRandomToken
    obtain ⟨hq, hid⟩ := mkToken64_query_eval rr (baSeqQueryIdx m t) hr
    exact ⟨hq, hid, mkToken64_value_eval true rr _ hidx⟩
  · intro m E vtx e rr
    refine ⟨?_, ?_, ?_⟩
    · intro h1
      unfold pbaFillTriple
      rw [if_pos h1]
    · intro h1 h2
      unfold pbaFillTriple
      rw [if_neg (by omega), if_pos h2]
    · intro h1 h2
      unfold pbaFillTriple
      rw [if_neg (by omega), if_neg (by omega)]
  · intro m E vtx e rr h1 h2 tc htc
    exact (tokC_construct_eval _ _ _ h1 h2).2 tc htc

/-- Closed witness for `ba_random_stream_amended`: the sequential
stream at `m = 1, t = 1, r = 5`; the parallel filler branches at
`E = 2` with draws 1 (seed), 7 (odd), 4 (even); the compressed
round-trip at `m = 1, E = 2, vtx = 1, e = 0, r = 4`. -/
theorem ba_random_stream_amended_witness :
    ((baSeqRandomToken 1 1 5).isQuery = true ∧
      (baSeqRandomToken 1 1 5).tokenId = 5 ∧
      (baSeqRandomToken 1 1 5).value = baSeqQueryIdx 1 1) ∧
    (pbaFillTriple 1 2 1 0 1 = (false, 1, pbaSeedGraphNode 1) ∧
      pbaFillTriple 1 2 1 0 7 = (false, 1, (7 - 2 * 2) / 2 / 1 + 2 + 1) ∧
      pbaFillTriple 1 2 1 0 4 = (true, (4 - 2 * 2) / 2, 1)) ∧
    (∀ tc, pbaFillTokenC 1 2 1 0 4 = some tc →
      tc.decompress = { query := (pbaFillTriple 1 2 1 0 4).1,
                        index := (pbaFillTriple 1 2 1 0 4).2.1,
                        value := (pbaFillTriple 1 2 1 0 4).2.2 }) :=
  ⟨ba_random_stream_amended.1 1 1 5 (by norm_num) (by norm_num [baSeqQueryIdx]),
   ⟨(ba_random_stream_amended.2.1 1 2 1 0 1).1 (by norm_num),
    (ba_random_stream_amended.2.1 1 2 1 0 7).2.1 (by norm_num) (by norm_num),
    (ba_random_stream_amended.2.1 1 2 1 0 4).2.2 (by norm_num) (by norm_num)⟩,
   ba_random_stream_amended.2.2 1 2 1 0 4 (by decide) (by decide)⟩

/-! ### Stream-merger contract (C5) -/

/-- Strict natural order as the Bool comparator (the element order used
by the merger's unit tests). -/
def natLtB (a b : Nat) : Bool := decide (a < b)

/-- First-component order on pairs: a comparator with genuinely
distinct tied elements, to observe which input a tie is taken from. -/
def fstLt (a b : Nat × Nat) : Bool := decide (a.1 < b.1)

theorem streamMerge_head_le (a : Nat) :
    ∀ xs ys : List Nat, (∀ z ∈ xs.head?, a ≤ z) → (∀ z ∈ ys.head?, a ≤ z) →
      ∀ z ∈ (streamMerge natLtB xs ys).head?, a ≤ z := by
  intro xs ys hx hy
  match xs, ys with
  | [], ys =>
    rw [streamMerge_nil_left]
    exact hy
  | x :: xs, [] =>
    rw [streamMerge_nil_right]
    exact hx
  | x :: xs, y :: ys =>
    rw [streamMerge_cons_cons]
    by_cases hc : natLtB x y
    · rw [if_pos hc]
      exact hx
    · rw [if_neg hc]
      exact hy

theorem streamMerge_sorted_nat :
    ∀ xs ys : List Nat, List.Chain' (· ≤ ·) xs → List.Chain' (· ≤ ·) ys →
      List.Chain' (· ≤ ·) (streamMerge natLtB xs ys) := by
  intro xs
  induction xs with
  | nil =>
    intro ys _ hy
    rw [streamMerge_nil_left]
    exact hy
  | cons x xs ihx =>
    intro ys hx hy
    induction ys with
    | nil =>
      rw [streamMerge_nil_right]
      exact hx
    | cons y ys ihy =>
      rw [streamMerge_cons_cons]
      by_cases hc : natLtB x y
      · rw [if_pos hc]
        rw [List.chain'_cons']
        refine ⟨?_, ihx (y :: ys) hx.tail hy⟩
        refine streamMerge_head_le x xs (y :: ys) ?_ ?_
        · exact fun z hz => (List.chain'_cons'.mp hx).1 z hz
        · intro z hz
          simp only [List.head?_cons, Option.mem_def, Option.some.injEq] at hz
          have : x < y := of_decide_eq_true hc
          omega
      · rw [if_neg hc]
        rw [List.chain'_cons']
        refine ⟨?_, ihy hy.tail⟩
        refine streamMerge_head_le y (x :: xs) ys ?_ ?_
        · intro z hz
          simp only [List.head?_cons, Option.mem_def, Option.some.injEq] at hz
          have : ¬ (x < y) := fun hlt => hc (decide_eq_true hlt)
          omega
        · exact fun z hz => (List.chain'_cons'.mp hy).1 z hz

theorem streamMerge_sublist_left {α : Type} (lt : α → α → Bool) :
    ∀ xs ys : List α, xs.Sublist (streamMerge lt xs ys) := by
  intro xs
  induction xs with
  | nil => intro ys; exact List.nil_sublist _
  | cons x xs ihx =>
    intro ys
    induction ys with
    | nil =>
      rw [streamMerge_nil_right]
    | cons y ys ihy =>
      rw [streamMerge_cons_cons]
      by_cases hc : lt x y
      · rw [if_pos hc]
        exact (ihx (y :: ys)).cons₂ x
      · rw [if_neg hc]
        exact ihy.cons y

theorem streamMerge_sublist_right {α : Type} (lt : α → α → Bool) :
    ∀ xs ys : List α, ys.Sublist (streamMerge lt xs ys) := by
  intro xs
  induction xs with
  | nil =>
    intro ys
    rw [streamMerge_nil_left]
  | cons x xs ihx =>
    intro ys
    induction ys with
    | nil => exact List.nil_sublist _
    | cons y ys ihy =>
      rw [streamMerge_cons_cons]
      by_cases hc : lt x y
      · rw [if_pos hc]
        exact (ihx (y :: ys)).cons x
      · rw [if_neg hc]
        exact ihy.cons₂ y

/-- **C5, counterexample.**  The claim says that when two input streams
have equal front elements the earlier-listed stream is consumed first.
With the first-component comparator and the tied fronts `(0,1)` (first
stream) and `(0,2)` (second stream), the merger emits the *second*
stream's element first: `compare(*_my_stream, *_others)` is false on a
tie, so `_others` is advanced. -/
theorem stream_merger_tie_counterexample :
    streamMerge fstLt [(0, 1)] [(0, 2)] = [(0, 2), (0, 1)] ∧
    ([(0, 2), (0, 1)] : List (Nat × Nat)) ≠ [(0, 1), (0, 2)] := by
  constructor
  · rfl
  · decide

/-- **C5, amended.**  At every step the merger exposes the minimum
front element over all non-empty inputs and advances exactly the input
that provided it — the output is a sorted interleaving: it is sorted,
it is a permutation of the inputs' concatenation, and each input is a
subsequence of it.  Ties, however, are broken in favour of the
*later*-listed input: when neither front is strictly smaller, the
element is taken from the second stream. -/
theorem stream_merger_amended :
    (∀ xs ys : List Nat, List.Chain' (· ≤ ·) xs → List.Chain' (· ≤ ·) ys →
      List.Chain' (· ≤ ·) (streamMerge natLtB xs ys)) ∧
    (∀ (α : Type) (lt : α → α → Bool) (xs ys : List α),
      (streamMerge lt xs ys).Perm (xs ++ ys) ∧
      xs.Sublist (streamMerge lt xs ys) ∧ ys.Sublist (streamMerge lt xs ys)) ∧
    (∀ (α : Type) (lt : α → α → Bool) (x y : α) (xs ys : List α), lt x y = false →
      streamMerge lt (x :: xs) (y :: ys) = y :: streamMerge lt (x :: xs) ys) ∧
    (∀ ss : List (List Nat), (∀ s ∈ ss, List.Chain' (· ≤ ·) s) →
      List.Chain' (· ≤ ·) (streamMergeK natLtB ss) ∧
      (streamMergeK natLtB ss).Perm ss.flatten) := by
  refine ⟨streamMerge_sorted_nat, ?_, ?_, ?_⟩
  · intro α lt xs ys
    exact ⟨streamMerge_perm lt xs ys, streamMerge_sublist_left lt xs ys,
      streamMerge_sublist_right lt xs ys⟩
  · intro α lt x y xs ys hfalse
    rw [streamMerge_cons_cons, if_neg (by simp [hfalse])]
  · intro ss hss
    refine ⟨?_, streamMergeK_perm natLtB ss⟩
    induction ss with
    | nil => simp [streamMergeK]
    | cons s ss ih =>
      simp only [streamMergeK, List.foldr_cons]
      exact streamMerge_sorted_nat s _ (hss s (by simp))
        (ih (fun t ht => hss t (by simp [ht])))

/-- Closed witness for `stream_merger_amended`: the S4 scenario — three
ascending streams merged into `0..11` — plus the tie rule at a
concrete tie. -/
theorem stream_merger_amended_witness :
    (List.Chain' (· ≤ ·) [0, 3, 6, 9] ∧ List.Chain' (· ≤ ·) [1, 4, 7, 10] ∧
      List.Chain' (· ≤ ·) (streamMerge natLtB [0, 3, 6, 9] [1, 4, 7, 10])) ∧
    (streamMerge natLtB [5, 5] [5]).Perm ([5, 5] ++ [5]) ∧
    streamMerge fstLt ((0, 1) :: []) ((0, 2) :: [])
      = (0, 2) :: streamMerge fstLt ((0, 1) :: []) [] ∧
    List.Chain' (· ≤ ·) (streamMergeK natLtB [[0, 3, 6, 9], [1, 4, 7, 10], [2, 5, 8, 11]]) :=
  ⟨⟨by simp [List.chain'_cons, List.chain'_singleton],
    by simp [List.chain'_cons, List.chain'_singleton],
    stream_merger_amended.1 [0, 3, 6, 9] [1, 4, 7, 10]
      (by simp [List.chain'_cons, List.chain'_singleton])
      (by simp [List.chain'_cons, List.chain'_singleton])⟩,
   (stream_merger_amended.2.1 Nat natLtB [5, 5] [5]).1,
   stream_merger_amended.2.2.1 (Nat × Nat) fstLt (0, 1) (0, 2) [] [] (by decide),
   (stream_merger_amended.2.2.2 [[0, 3, 6, 9], [1, 4, 7, 10], [2, 5, 8, 11]]
      (by intro s hs
          simp only [List.mem_cons, List.not_mem_nil, or_false] at hs
          rcases hs with rfl | rfl | rfl <;>
            simp [List.chain'_cons, List.chain'_singleton])).1⟩

/-! ### BBCR query sampling (C4) -/

/-- Accessor evaluation for a Link-flagged token with in-range index. -/
theorem mkToken64_link_eval (x y : Nat) (hx : x < 2 ^ 63) :
    (mkToken64 false x y).isQuery = false ∧ (mkToken64 false x y).tokenId = x := by
  refine ⟨mkToken64_link_not_query x y, ?_⟩
  unfold mkToken64 Tok.tokenId
  simp only [if_neg Bool.false_ne_true, Nat.add_zero]
  omega

/-- The spec's sampling map, taken from its words: "sample r in [0, t)
rounded down to the nearest odd index". -/
def specRoundDownToOdd (r : Nat) : Nat := if r % 2 = 1 then r else r - 1

/-- **C4, counterexample.**  The claim says the in-distribution PA
selection rounds the draw *down* to the nearest odd index.  The code
computes `rand_token |= 1`, which rounds *up*: with `δ_in = 0` (PA
branch forced), `t = 5` and draw `r = 2` (legal: `2 < t & ~1 = 4`),
the emitted query index is `3`, while rounding 2 down to the nearest
odd index gives `1`. -/
theorem bbcr_rounding_counterexample :
    (bbcrGenerateRandomToken false 0 0 0 5 2 0).tokenId = 3 ∧
    specRoundDownToOdd 2 = 1 ∧ (3 : Nat) ≠ 1 := by
  refine ⟨?_, by decide, by decide⟩
  unfold bbcrGenerateRandomToken
  rw [if_neg (by intro h; exact absurd h.1 (lt_irrefl 0))]
  exact (mkToken64_query_eval _ _ (by norm_num [bbcrPaTokenIdx])).2

/-- **C4, amended.**  In `_generate_random_token`: provided the offset
is positive and the uniform draw `u` falls below
`v*offset / (v*offset + ⌊t/2⌋)`, a uniform selection emits
`Link(t, ru)` with `ru` drawn from `[0, v+1)` and the vertex counter
untouched; otherwise the PA selection draws `r` from `[0, 2*⌊t/2⌋)`
(i.e. `[0, t & ~1)`, not `[0, t)`) and emits `Query(r', t)` where the
in-distribution rounds `r` *up* to the nearest odd index (`r | 1`) and
the out-distribution rounds *down* to the nearest even index
(`r & ~1`); with `offset = 0` the uniform branch is never taken. -/
theorem bbcr_random_token_amended :
    ∀ (distrOut : Bool) (offset u : ℚ) (v t rr ru : Nat),
      rr < 2 * (t / 2) → t < 2 ^ 63 → ru < 2 ^ 63 →
      ((0 < offset ∧ u < (v : ℚ) * offset / ((v : ℚ) * offset + ((t / 2 : Nat) : ℚ)) →
        (bbcrGenerateRandomToken distrOut offset u v t rr ru).isQuery = false ∧
        (bbcrGenerateRandomToken distrOut offset u v t rr ru).tokenId = t ∧
        (bbcrGenerateRandomToken distrOut offset u v t rr ru).value = ru) ∧
      (¬ (0 < offset ∧ u < (v : ℚ) * offset / ((v : ℚ) * offset + ((t / 2 : Nat) : ℚ))) →
        (bbcrGenerateRandomToken distrOut offset u v t rr ru).isQuery = true ∧
        (bbcrGenerateRandomToken distrOut offset u v t rr ru).tokenId
          = bbcrPaTokenIdx distrOut rr ∧
        (bbcrGenerateRandomToken distrOut offset u v t rr ru).value = t) ∧
      (bbcrPaTokenIdx true rr % 2 = 0 ∧ bbcrPaTokenIdx true rr ≤ rr ∧
        bbcrPaTokenIdx false rr % 2 = 1 ∧ rr ≤ bbcrPaTokenIdx false rr ∧
        bbcrPaTokenIdx false rr ≤ rr + 1)) := by
  intro distrOut offset u v t rr ru hr ht hru
  have hidx : bbcrPaTokenIdx distrOut rr < 2 ^ 63 := by
    unfold bbcrPaTokenIdx
    by_cases hd : distrOut
    · rw [if_pos hd]; omega
    · rw [if_neg hd]; omega
  refine ⟨?_, ?_, ?_⟩
  · intro hc
    unfold bbcrGenerateRandomToken
    rw [if_pos hc]
    obtain ⟨h1, h2⟩ := mkToken64_link_eval t ru ht
    exact ⟨h1, h2, mkToken64_value_eval false t ru (by omega)⟩
  · intro hc
    unfold bbcrGenerateRandomToken
    rw [if_neg hc]
    obtain ⟨h1, h2⟩ := mkToken64_query_eval (bbcrPaTokenIdx distrOut rr) t hidx
    exact ⟨h1, h2, mkToken64_value_eval true _ t (by omega)⟩
  · unfold bbcrPaTokenIdx
    simp only [if_pos, if_neg Bool.false_ne_true]
    omega

/-- Closed witness for `bbcr_random_token_amended` at
`δ = 0, t = 5, r = 2, ru = 0` (PA branch: `Query(3, 5)`). -/
theorem bbcr_random_token_amended_witness :
    (¬ (0 < (0 : ℚ) ∧ (0 : ℚ) < (0 : ℚ) * 0 / ((0 : ℚ) * 0 + ((5 / 2 : Nat) : ℚ))) →
      (bbcrGenerateRandomToken false 0 0 0 5 2 0).isQuery = true ∧
      (bbcrGenerateRandomToken false 0 0 0 5 2 0).tokenId = bbcrPaTokenIdx false 2 ∧
      (bbcrGenerateRandomToken false 0 0 0 5 2 0).value = 5) ∧
    (bbcrPaTokenIdx true 2 % 2 = 0 ∧ bbcrPaTokenIdx true 2 ≤ 2 ∧
      bbcrPaTokenIdx false 2 % 2 = 1 ∧ 2 ≤ bbcrPaTokenIdx false 2 ∧
      bbcrPaTokenIdx false 2 ≤ 2 + 1) :=
  ⟨(bbcr_random_token_amended false 0 0 0 5 2 0 (by norm_num) (by norm_num)
      (by norm_num)).2.1,
   (bbcr_random_token_amended false 0 0 0 5 2 0 (by norm_num) (by norm_num)
      (by norm_num)).2.2⟩

/-! ## Edge filter (`EdgeFilter.hpp`)

`EdgeFilter::_fetch` scans the input stream until a candidate passes:
a candidate is rejected when (`_self_loops` and its endpoints are
equal) or (`_multi_edges`, not the initial fetch, and it equals the
last emitted edge).  The initial fetch only applies the self-loop
test.  Edges are endpoint pairs. -/

/-- `_fetch(false)` iterated: `last` is `_last_edge`, the previously
emitted edge. -/
def edgeFilterGo (selfLoops multiEdges : Bool) (last : Nat × Nat) :
    List (Nat × Nat) → List (Nat × Nat)
  | [] => []
  | e :: rest =>
    if (selfLoops && e.1 == e.2) || (multiEdges && e == last) then
      edgeFilterGo selfLoops multiEdges last rest
    else
      e :: edgeFilterGo selfLoops multiEdges e rest

/-- The whole filter: the constructor's `_fetch(true)` applies only the
self-loop predicate, then the stream continues with `_fetch(false)`. -/
def edgeFilter (selfLoops multiEdges : Bool) : List (Nat × Nat) → List (Nat × Nat)
  | [] => []
  | e :: rest =>
    if selfLoops && e.1 == e.2 then edgeFilter selfLoops multiEdges rest
    else e :: edgeFilterGo selfLoops multiEdges e rest

/-- Lexicographic non-strict order on edges as a Bool predicate (the
sortedness the filter's multi-edge pass requires). -/
def pairLeB (a b : Nat × Nat) : Bool :=
  decide (a.1 < b.1) || (a.1 == b.1 && decide (a.2 ≤ b.2))

theorem edgeFilterGo_clean : ∀ (l : List (Nat × Nat)) (last : Nat × Nat),
    (∀ e ∈ edgeFilterGo true true last l, e.1 ≠ e.2) ∧
    List.Chain' (· ≠ ·) (last :: edgeFilterGo true true last l) := by
  intro l
  induction l with
  | nil => intro last; exact ⟨by simp [edgeFilterGo], by simp [edgeFilterGo]⟩
  | cons e rest ih =>
    intro last
    unfold edgeFilterGo
    by_cases hc : (true && e.1 == e.2) || (true && e == last)
    · rw [if_pos hc]
      exact ih last
    · rw [if_neg hc]
      simp only [Bool.true_and, Bool.or_eq_true, beq_iff_eq, not_or] at hc
      push_neg at hc
      obtain ⟨hself, hlast⟩ := hc
      have hself' : e.1 ≠ e.2 := by
        intro h
        exact hself (by simp [h])
      have hlast' : e ≠ last := by
        intro h
        exact hlast (by simp [h])
      refine ⟨?_, ?_⟩
      · intro f hf
        rcases List.mem_cons.mp hf with rfl | hf'
        · exact hself'
        · exact (ih e).1 f hf'
      · rw [List.chain'_cons']
        refine ⟨?_, (ih e).2⟩
        intro z hz
        simp only [List.head?_cons, Option.mem_def, Option.some.injEq] at hz
        subst hz
        exact fun h => hlast' h.symm

theorem edgeFilterGo_id : ∀ (l : List (Nat × Nat)) (last : Nat × Nat),
    (∀ e ∈ l, e.1 ≠ e.2) → List.Chain' (· ≠ ·) (last :: l) →
    edgeFilterGo true true last l = l := by
  intro l
  induction l with
  | nil => intro last _ _; rfl
  | cons e rest ih =>
    intro last hclean hchain
    have hne : last ≠ e := (List.chain'_cons.mp hchain).1
    have hself : e.1 ≠ e.2 := hclean e (by simp)
    unfold edgeFilterGo
    rw [if_neg]
    · congr 1
      exact ih e (fun f hf => hclean f (by simp [hf])) (List.chain'_cons.mp hchain).2
    · simp only [Bool.true_and, Bool.or_eq_true, beq_iff_eq, not_or]
      exact ⟨by simpa using hself, by simpa using fun h => hne h.symm⟩

theorem edgeFilter_clean (l : List (Nat × Nat)) :
    (∀ e ∈ edgeFilter true true l, e.1 ≠ e.2) ∧
    List.Chain' (· ≠ ·) (edgeFilter true true l) := by
  induction l with
  | nil => exact ⟨by simp [edgeFilter], by simp [edgeFilter]⟩
  | cons e rest ih =>
    unfold edgeFilter
    by_cases hc : (true && e.1 == e.2)
    · rw [if_pos hc]
      exact ih
    · rw [if_neg hc]
      simp only [Bool.true_and, beq_iff_eq] at hc
      refine ⟨?_, ?_⟩
      · intro f hf
        rcases List.mem_cons.mp hf with rfl | hf'
        · exact hc
        · exact (edgeFilterGo_clean rest e).1 f hf'
      · exact (edgeFilterGo_clean rest e).2

theorem edgeFilter_id (l : List (Nat × Nat))
    (hclean : ∀ e ∈ l, e.1 ≠ e.2) (hchain : List.Chain' (· ≠ ·) l) :
    edgeFilter true true l = l := by
  match l with
  | [] => rfl
  | e :: rest =>
    unfold edgeFilter
    rw [if_neg (by simpa using hclean e (by simp))]
    congr 1
    exact edgeFilterGo_id rest e (fun f hf => hclean f (by simp [hf])) hchain

/-- **C8.** `EdgeFilter(self_loops = true, multi_edges = true)` is
idempotent: on every lexicographically sorted edge stream, applying the
filter twice yields exactly the output of one application.  (In fact
the output of one pass has no self-loops and no two adjacent equal
edges, and on such streams the filter is the identity; the sortedness
hypothesis is the precondition the component documents.) -/
theorem edge_filter_idempotent (l : List (Nat × Nat))
    (hsorted : List.Chain' (fun a b => pairLeB a b = true) l) :
    edgeFilter true true (edgeFilter true true l) = edgeFilter true true l :=
  edgeFilter_id (edgeFilter true true l)
    (edgeFilter_clean l).1 (edgeFilter_clean l).2

/-- Closed witness for `edge_filter_idempotent` on the S5 stream
`(1,2),(1,2),(1,2),(2,2),(2,3)`. -/
theorem edge_filter_idempotent_witness :
    List.Chain' (fun a b => pairLeB a b = true)
      [(1, 2), (1, 2), (1, 2), (2, 2), (2, 3)] ∧
    edgeFilter true true
        (edgeFilter true true [(1, 2), (1, 2), (1, 2), (2, 2), (2, 3)])
      = edgeFilter true true [(1, 2), (1, 2), (1, 2), (2, 2), (2, 3)] :=
  ⟨by simp [List.chain'_cons, List.chain'_singleton, pairLeB],
   edge_filter_idempotent [(1, 2), (1, 2), (1, 2), (2, 2), (2, 3)]
     (by simp [List.chain'_cons, List.chain'_singleton, pairLeB])⟩

/-! ## Reservoir sampling (`ReservoirSampling.hpp`)

The constructor builds `std::vector<T> _reservoir(reservoir_size)` —
a vector already holding `reservoir_size` default-constructed
elements.  `push(d)` increments `_elements_pushed` and then:
if `_reservoir_target_size <= _elements_pushed` it appends `d`
(the branch the source comments call "Initial fill"); otherwise it
draws `r < _elements_pushed` and either discards (`r >=
_reservoir_target_size`), replaces slot `r`, or appends.  The element
type is instantiated at `uint64_t`, modelled as `Nat` (default 0). -/

/-- The mutable state of `ReservoirSampling<uint64_t>`. -/
structure ReservoirState where
  reservoir : List Nat
  targetSize : Nat
  elementsPushed : Nat
  deriving Repr, DecidableEq

/-- The constructor: a vector of `reservoir_size` default elements. -/
def reservoirInit (reservoirSize : Nat) : ReservoirState :=
  { reservoir := List.replicate reservoirSize 0
    targetSize := reservoirSize
    elementsPushed := 0 }

/-- `ReservoirSampling::push(d)`; `r` is the value drawn by
`Random::randint(_elements_pushed)` (only used on the sampling path). -/
def reservoirPush (st : ReservoirState) (d r : Nat) : ReservoirState :=
  let pushed := st.elementsPushed + 1
  if st.targetSize ≤ pushed then
    { st with reservoir := st.reservoir ++ [d], elementsPushed := pushed }
  else if st.targetSize ≤ r then
    { st with elementsPushed := pushed }
  else if r < st.reservoir.length then
    { st with reservoir := st.reservoir.set r d, elementsPushed := pushed }
  else
    { st with reservoir := st.reservoir ++ [d], elementsPushed := pushed }

/-- **C9.** The claim (and the class's own documentation) promise a
fixed-capacity bag: never more than `k` items.  The code violates it
immediately: with capacity `k = 1` the constructor already stores one
default element and the very first `push` appends (the fill condition
`_reservoir_target_size <= _elements_pushed` is inverted), leaving two
items.  Every draw value gives the same result, so `r = 0` is taken. -/
theorem reservoir_capacity_bug :
    (reservoirPush (reservoirInit 1) 5 0).reservoir.length = 2 ∧
    ¬ ((reservoirPush (reservoirInit 1) 5 0).reservoir.length ≤ 1) := by
  decide
